import Mathlib

/-!
Verification of the ppt-summarizer synthesis pipeline.

The definitions below are shallow embeddings of the TypeScript source:
`chunk`, `isComplex`, `parseImageDescriptions`, `buildVisionPrompt`
(`src/llm-analyzer.ts`), `collectAllPages`, the page-coverage and
same-level-overlap validation of `buildBoneStructure`, `buildFullNote`
(`src/config.ts`), and `simpleHash` with the image deduplication of
`processPDF` (`pdf-processor.ts`).  Strings manipulated character by
character in the source are modelled as `List Char`; JavaScript `Map`
lookup (last write wins) is modelled as `find?` on the reversed list;
rejected promises and thrown exceptions are modelled with `Except`.
-/

/-- Embeds `chunk` from `src/llm-analyzer.ts`:
`for (let i = 0; i < arr.length; i += size) result.push(arr.slice(i, i + size))`.
For `size ≥ 1` each step takes `arr.slice(i, i+size) = take size` of the rest
and continues with `drop size`; written with `size - 1` on the tail so the
recursion is well-founded (the source loop diverges for `size = 0`; all
theorems assume `1 ≤ size` as the configuration guarantees). -/
def chunk {α : Type _} : List α → Nat → List (List α)
  | [], _ => []
  | a :: rest, size => (a :: rest.take (size - 1)) :: chunk (rest.drop (size - 1)) size
termination_by l _ => l.length
decreasing_by
  simp only [List.length_drop, List.length_cons]
  omega

theorem chunk_nil {α : Type _} (size : Nat) : chunk ([] : List α) size = [] := by
  simp [chunk]

theorem chunk_cons {α : Type _} (a : α) (rest : List α) (size : Nat) :
    chunk (a :: rest) size
      = (a :: rest.take (size - 1)) :: chunk (rest.drop (size - 1)) size := by
  simp [chunk]

theorem chunk_eq_nil_iff {α : Type _} (l : List α) (size : Nat) :
    chunk l size = [] ↔ l = [] := by
  cases l with
  | nil => simp [chunk]
  | cons a rest => simp [chunk_cons]

theorem chunk_join {α : Type _} (l : List α) (B : Nat) :
    1 ≤ B → (chunk l B).flatten = l := by
  induction l, B using chunk.induct with
  | case1 size => simp [chunk]
  | case2 a rest size ih =>
    intro hB
    rw [chunk_cons]
    simp only [List.flatten_cons, ih hB, List.cons_append]
    rw [List.take_append_drop]

theorem chunk_length {α : Type _} (l : List α) (B : Nat) :
    1 ≤ B → (chunk l B).length = (l.length + B - 1) / B := by
  induction l, B using chunk.induct with
  | case1 size =>
    intro hB
    rw [chunk_nil]
    simp only [List.length_nil, List.length, Nat.zero_add]
    rw [Nat.div_eq_of_lt (by omega)]
  | case2 a rest size ih =>
    intro hB
    rw [chunk_cons]
    simp only [List.length_cons, List.length_drop] at *
    rw [ih hB]
    have h2 : rest.length + 1 + size - 1 = rest.length + size := by omega
    rw [h2, Nat.add_div_right _ (by omega)]
    rcases Nat.lt_or_ge rest.length (size - 1) with hlt | hge
    · have h3 : rest.length - (size - 1) + size - 1 = size - 1 := by omega
      rw [h3, Nat.div_eq_of_lt (by omega), Nat.div_eq_of_lt (by omega)]
    · have h1 : rest.length - (size - 1) + size - 1 = rest.length := by omega
      rw [h1]

theorem chunk_sizes {α : Type _} (l : List α) (B : Nat) :
    1 ≤ B → ∀ b ∈ chunk l B, b.length ≤ B := by
  induction l, B using chunk.induct with
  | case1 size => simp [chunk]
  | case2 a rest size ih =>
    intro hB b hb
    rw [chunk_cons] at hb
    rcases List.mem_cons.mp hb with h | h
    · subst h
      simp only [List.length_cons, List.length_take]
      omega
    · exact ih hB b h

theorem chunk_full_sizes {α : Type _} (l : List α) (B : Nat) :
    1 ≤ B → ∀ b ∈ (chunk l B).dropLast, b.length = B := by
  induction l, B using chunk.induct with
  | case1 size => simp [chunk]
  | case2 a rest size ih =>
    intro hB b hb
    rw [chunk_cons] at hb
    cases hrest : chunk (rest.drop (size - 1)) size with
    | nil =>
      rw [hrest] at hb
      simp at hb
    | cons c cs =>
      rw [hrest, List.dropLast_cons_of_ne_nil (by simp)] at hb
      rcases List.mem_cons.mp hb with h | h
      · subst h
        have hne : rest.drop (size - 1) ≠ [] := by
          intro hnil
          rw [hnil, chunk_nil] at hrest
          exact List.cons_ne_nil _ _ hrest.symm
        have hlen : size - 1 ≤ rest.length := by
          by_contra hc
          exact hne (List.drop_eq_nil_of_le (by omega))
        simp only [List.length_cons, List.length_take]
        omega
      · rw [← hrest] at h
        exact ih hB b h

theorem chunk_batches_ne_nil {α : Type _} (l : List α) (B : Nat) :
    ∀ b ∈ chunk l B, b ≠ [] := by
  induction l, B using chunk.induct with
  | case1 size => simp [chunk]
  | case2 a rest size ih =>
    intro b hb
    rw [chunk_cons] at hb
    rcases List.mem_cons.mp hb with h | h
    · subst h
      exact List.cons_ne_nil _ _
    · exact ih b h

/-- C3: for every list of `N` images and configured batch size `B ≥ 1`, `chunk`
produces exactly `⌈N/B⌉ = (N + B - 1) / B` batches, every batch has size at
most `B`, all but possibly the last have size exactly `B`, and the
concatenation of the batches is the original list (each element exactly once,
order preserved within and across batches). -/
theorem claim_C3_chunk_partition {α : Type _} (l : List α) (B : Nat) (hB : 1 ≤ B) :
    (chunk l B).length = (l.length + B - 1) / B
    ∧ (∀ b ∈ chunk l B, b.length ≤ B)
    ∧ (∀ b ∈ (chunk l B).dropLast, b.length = B)
    ∧ (chunk l B).flatten = l :=
  ⟨chunk_length l B hB, chunk_sizes l B hB, chunk_full_sizes l B hB, chunk_join l B hB⟩

theorem claim_C3_chunk_partition_witness :
    1 ≤ 2
    ∧ ((chunk [10, 20, 30, 40, 50] 2).length = (5 + 2 - 1) / 2
      ∧ (∀ b ∈ chunk [10, 20, 30, 40, 50] 2, b.length ≤ 2)
      ∧ (∀ b ∈ (chunk [10, 20, 30, 40, 50] 2).dropLast, b.length = 2)
      ∧ (chunk [10, 20, 30, 40, 50] 2).flatten = [10, 20, 30, 40, 50]) :=
  ⟨by decide, claim_C3_chunk_partition [10, 20, 30, 40, 50] 2 (by decide)⟩

/-- An image together with the page text it was extracted next to: the fields
of `ImageWithContext` from `src/llm-analyzer.ts` that the vision prompt and
the response parser read (`id`, `pageNumber`, `pageText`). -/
structure ImgCtx where
  id : List Char
  pageNumber : Nat
  pageText : List Char
deriving DecidableEq

/-- JavaScript `Array.prototype.join(sep)` on a list of strings. -/
def joinSep (sep : List Char) : List (List Char) → List Char
  | [] => []
  | [x] => x
  | x :: xs => x ++ sep ++ joinSep sep xs

/-- One numbered entry of the image list in `buildVisionPrompt`:
`` `${i + 1}. Image ID: ${img.id} (page ${img.pageNumber})${ctx}` `` where
`ctx` is the quoted slide text when `img.pageText` is nonempty. -/
def visionEntry (i : Nat) (img : ImgCtx) : List Char :=
  (toString (i + 1)).toList ++ ". Image ID: ".toList ++ img.id
    ++ " (page ".toList ++ (toString img.pageNumber).toList ++ ")".toList
    ++ (if img.pageText = [] then []
        else "\n   Slide text: \"".toList ++ img.pageText ++ "\"".toList)

/-- The enumerated image list of `buildVisionPrompt`, joined with blank lines. -/
def visionImageList (batch : List ImgCtx) : List Char :=
  joinSep "\n\n".toList (batch.enum.map (fun p => visionEntry p.1 p.2))

/-- Embeds `buildVisionPrompt` from `src/llm-analyzer.ts`.  The source
interpolates `batch[0].id` (which throws on an empty batch — modelled by
`Option` via `head?`) and `batch[1]?.id ?? "..."`; the surrounding constant
instruction text is abbreviated, the id- and batch-dependent structure is
kept. -/
def buildVisionPrompt (batch : List ImgCtx) : Option (List Char) :=
  batch.head?.map (fun first =>
    "Images to analyze:\n".toList ++ visionImageList batch
      ++ "\n\nRespond in this exact format:\n\n".toList
      ++ ('[' :: first.id)
      ++ "]\n<structured description>\n\n[".toList
      ++ ((batch[1]?).map ImgCtx.id).getD "...".toList
      ++ "]\n<structured description>\n\nContinue for every image.".toList)

/-- C10: for every input list and chunk size `B ≥ 1`, an empty input yields
zero batches (never an empty batch), every produced batch is nonempty, and
therefore `buildVisionPrompt`'s access to `batch[0].id` succeeds (`isSome`)
on every batch actually issued. -/
theorem claim_C10_batches_nonempty (imgs : List ImgCtx) (B : Nat) (_hB : 1 ≤ B) :
    chunk ([] : List ImgCtx) B = []
    ∧ (∀ b ∈ chunk imgs B, b ≠ [])
    ∧ (∀ b ∈ chunk imgs B, (buildVisionPrompt b).isSome) := by
  refine ⟨chunk_nil B, chunk_batches_ne_nil imgs B, fun b hb => ?_⟩
  cases hb' : b with
  | nil => exact absurd hb' (chunk_batches_ne_nil imgs B b hb)
  | cons x xs => simp [buildVisionPrompt]

theorem claim_C10_batches_nonempty_witness :
    1 ≤ 3
    ∧ (chunk ([] : List ImgCtx) 3 = []
      ∧ (∀ b ∈ chunk [(⟨['a'], 1, []⟩ : ImgCtx), ⟨['b'], 1, []⟩, ⟨['c'], 2, []⟩, ⟨['d'], 3, []⟩] 3, b ≠ [])
      ∧ (∀ b ∈ chunk [(⟨['a'], 1, []⟩ : ImgCtx), ⟨['b'], 1, []⟩, ⟨['c'], 2, []⟩, ⟨['d'], 3, []⟩] 3, (buildVisionPrompt b).isSome)) :=
  ⟨by decide,
    claim_C10_batches_nonempty [⟨['a'], 1, []⟩, ⟨['b'], 1, []⟩, ⟨['c'], 2, []⟩, ⟨['d'], 3, []⟩] 3 (by decide)⟩

/-- The metadata fields of `ExtractedImage` read by the complexity router in
`src/llm-analyzer.ts` (`width`, `byteLength`), plus the page number so that
distinct images can carry identical metadata. -/
structure ImageMeta where
  pageNumber : Nat
  width : Nat
  byteLength : Nat
deriving DecidableEq

/-- Embeds `isComplex` from `src/llm-analyzer.ts`:
`img.width > CONFIG.complexImageMinWidth || img.byteLength > CONFIG.complexImageMinBytes`.
The configured thresholds are the parameters `W` and `B`. -/
def isComplex (W B : Nat) (img : ImageMeta) : Bool :=
  decide (W < img.width) || decide (B < img.byteLength)

/-- Embeds `allImages.filter((img) => !isComplex(img))`. -/
def simpleImages (W B : Nat) (allImages : List ImageMeta) : List ImageMeta :=
  allImages.filter (fun img => !isComplex W B img)

/-- Embeds `allImages.filter(isComplex)`. -/
def complexImages (W B : Nat) (allImages : List ImageMeta) : List ImageMeta :=
  allImages.filter (isComplex W B)

theorem length_filter_partition {α : Type _} (p : α → Bool) (l : List α) :
    (l.filter (fun a => !p a)).length + (l.filter p).length = l.length := by
  induction l with
  | nil => simp
  | cons a t ih =>
    cases h : p a <;> simp [List.filter_cons, h] <;> omega

/-- C9: the Complexity Router classifies an image as complex iff its pixel
width strictly exceeds the width threshold OR its byte length strictly
exceeds the byte threshold; the classification is a total Boolean function,
and the simple/complex groups form an exact partition of the surviving
images: no image lands in both groups, an image is in the input iff it is in
one of the two groups, and the group sizes sum to the input size. -/
theorem claim_C9_complexity_router (W B : Nat) (allImages : List ImageMeta) :
    (∀ img : ImageMeta, isComplex W B img = true ↔ (W < img.width ∨ B < img.byteLength))
    ∧ (∀ img : ImageMeta, isComplex W B img = true ∨ isComplex W B img = false)
    ∧ (∀ img, img ∈ simpleImages W B allImages ↔ img ∈ allImages ∧ isComplex W B img = false)
    ∧ (∀ img, img ∈ complexImages W B allImages ↔ img ∈ allImages ∧ isComplex W B img = true)
    ∧ (∀ img, ¬(img ∈ simpleImages W B allImages ∧ img ∈ complexImages W B allImages))
    ∧ (∀ img, img ∈ allImages ↔ (img ∈ simpleImages W B allImages ∨ img ∈ complexImages W B allImages))
    ∧ (simpleImages W B allImages).length + (complexImages W B allImages).length
        = allImages.length := by
  refine ⟨?_, ?_, ?_, ?_, ?_, ?_, ?_⟩
  · intro img
    simp [isComplex]
  · intro img
    cases isComplex W B img <;> simp
  · intro img
    simp [simpleImages, List.mem_filter]
  · intro img
    simp [complexImages, List.mem_filter]
  · intro img
    simp only [simpleImages, complexImages, List.mem_filter]
    rintro ⟨⟨-, h1⟩, -, h2⟩
    rw [h2] at h1
    simp at h1
  · intro img
    simp only [simpleImages, complexImages, List.mem_filter]
    constructor
    · intro h
      cases hc : isComplex W B img
      · exact Or.inl ⟨h, by simp [hc]⟩
      · exact Or.inr ⟨h, rfl⟩
    · rintro (⟨h, -⟩ | ⟨h, -⟩) <;> exact h
  · exact length_filter_partition _ allImages

/-- Wrap an integer to signed 32-bit two's complement, as JavaScript
`| 0` and `Math.imul` do. -/
def toInt32 (n : Int) : Int := (n + 2 ^ 31) % 2 ^ 32 - 2 ^ 31

/-- One step of the rolling hash in `simpleHash` (`pdf-processor.ts`):
`h = (Math.imul(31, h) + data[i]) | 0`. -/
def hashStep (h : Int) (b : Nat) : Int := toInt32 (toInt32 (31 * h) + b)

/-- The byte-sampling loop of `simpleHash`:
`for (let i = 0; i < data.length; i += step)` keeps `data[i]`.  Written with
`step - 1` on the tail for well-founded recursion; for `step ≥ 1` (which
`Math.max(1, …)` guarantees) each round keeps the head and skips the next
`step - 1` bytes. -/
def sampleStride : List Nat → Nat → List Nat
  | [], _ => []
  | a :: rest, step => a :: sampleStride (rest.drop (step - 1)) step
termination_by l _ => l.length
decreasing_by
  simp only [List.length_drop, List.length_cons]
  omega

/-- Embeds `simpleHash` from `pdf-processor.ts`: the 32-bit multiplicative
rolling hash of the bytes sampled at stride `max(1, ⌊length/1024⌋)`, combined
with the raw byte length into the key `` `${h}-${data.length}` ``. -/
def simpleHash (data : List Nat) : String :=
  toString ((sampleStride data (max 1 (data.length / 1024))).foldl hashStep 0)
    ++ "-" ++ toString data.length

/-- An extracted image as the deduplication in `processPDF` sees it: its page
and its raw PNG bytes (each byte a value `< 256`; the bound is irrelevant to
the claims). -/
structure PImage where
  pageNumber : Nat
  bytes : List Nat
deriving DecidableEq

/-- The fingerprint key of an image. -/
def imageKey (img : PImage) : String := simpleHash img.bytes

/-- Embeds the deduplication loop of `processPDF` (`pdf-processor.ts`): walk
the extracted images in order with the `seenImageHashes` set; skip an image
whose key was already seen, otherwise keep it and record its key. -/
def dedupImages : List PImage → List String → List PImage
  | [], _ => []
  | img :: rest, seen =>
    if imageKey img ∈ seen then dedupImages rest seen
    else img :: dedupImages rest (imageKey img :: seen)

theorem dedupImages_sublist (l : List PImage) (seen : List String) :
    (dedupImages l seen).Sublist l := by
  induction l, seen using dedupImages.induct with
  | case1 seen => simp [dedupImages]
  | case2 img rest seen hmem ih =>
    rw [dedupImages, if_pos hmem]
    exact ih.cons img
  | case3 img rest seen hmem ih =>
    rw [dedupImages, if_neg hmem]
    exact ih.cons₂ img

theorem dedupImages_keys (l : List PImage) (seen : List String) (k : String) :
    k ∈ (dedupImages l seen).map imageKey ↔ k ∈ l.map imageKey ∧ k ∉ seen := by
  induction l, seen using dedupImages.induct with
  | case1 seen => simp [dedupImages]
  | case2 img rest seen hmem ih =>
    rw [dedupImages, if_pos hmem]
    simp only [List.map_cons, List.mem_cons, ih]
    constructor
    · rintro ⟨h1, h2⟩
      exact ⟨Or.inr h1, h2⟩
    · rintro ⟨h1 | h1, h2⟩
      · subst h1
        exact absurd hmem h2
      · exact ⟨h1, h2⟩
  | case3 img rest seen hmem ih =>
    rw [dedupImages, if_neg hmem]
    simp only [List.map_cons, List.mem_cons, ih]
    constructor
    · rintro (h1 | ⟨h1, h2⟩)
      · subst h1
        exact ⟨Or.inl rfl, hmem⟩
      · exact ⟨Or.inr h1, fun hc => h2 (Or.inr hc)⟩
    · rintro ⟨h1 | h1, h2⟩
      · exact Or.inl h1
      · by_cases hk : k = imageKey img
        · exact Or.inl hk
        · exact Or.inr ⟨h1, by simp [hk, h2]⟩

theorem dedupImages_keys_nodup (l : List PImage) (seen : List String) :
    ((dedupImages l seen).map imageKey).Nodup := by
  induction l, seen using dedupImages.induct with
  | case1 seen => simp [dedupImages]
  | case2 img rest seen hmem ih =>
    rw [dedupImages, if_pos hmem]
    exact ih
  | case3 img rest seen hmem ih =>
    rw [dedupImages, if_neg hmem]
    simp only [List.map_cons, List.nodup_cons]
    refine ⟨fun hc => ?_, ih⟩
    rw [dedupImages_keys] at hc
    exact hc.2 (List.mem_cons_self _ _)

theorem dedupImages_first_occurrence (l : List PImage) (seen : List String)
    (x : PImage) :
    x ∈ dedupImages l seen
      ↔ x ∈ l ∧ imageKey x ∉ seen
          ∧ l.find? (fun y => imageKey y == imageKey x) = some x := by
  induction l, seen using dedupImages.induct with
  | case1 seen => simp [dedupImages]
  | case2 img rest seen hmem ih =>
    rw [dedupImages, if_pos hmem]
    rw [ih]
    constructor
    · rintro ⟨h1, h2, h3⟩
      have hne : imageKey img ≠ imageKey x := by
        intro he
        rw [he] at hmem
        exact h2 hmem
      refine ⟨List.mem_cons_of_mem _ h1, h2, ?_⟩
      rw [List.find?_cons_of_neg _ (by simp [hne]), h3]
    · rintro ⟨h1, h2, h3⟩
      by_cases he : imageKey img = imageKey x
      · rw [List.find?_cons_of_pos _ (by simp [he])] at h3
        injection h3 with h3
        subst h3
        exact absurd hmem h2
      · rw [List.find?_cons_of_neg _ (by simp [he])] at h3
        have h1' : x ∈ rest := by
          rcases List.mem_cons.mp h1 with h | h
          · subst h
            exact absurd rfl he
          · exact h
        exact ⟨h1', h2, h3⟩
  | case3 img rest seen hmem ih =>
    rw [dedupImages, if_neg hmem]
    constructor
    · intro hx
      rcases List.mem_cons.mp hx with h | h
      · subst h
        exact ⟨List.mem_cons_self _ _, hmem,
          List.find?_cons_of_pos _ (by simp)⟩
      · rw [ih] at h
        obtain ⟨h1, h2, h3⟩ := h
        have hne : imageKey img ≠ imageKey x := by
          intro he
          exact h2 (by rw [← he]; exact List.mem_cons_self _ _)
        refine ⟨List.mem_cons_of_mem _ h1, fun hc => h2 (List.mem_cons_of_mem _ hc), ?_⟩
        rw [List.find?_cons_of_neg _ (by simp [hne]), h3]
    · rintro ⟨h1, h2, h3⟩
      by_cases he : imageKey img = imageKey x
      · rw [List.find?_cons_of_pos _ (by simp [he])] at h3
        injection h3 with h3
        subst h3
        exact List.mem_cons_self _ _
      · rw [List.find?_cons_of_neg _ (by simp [he])] at h3
        have h1' : x ∈ rest := by
          rcases List.mem_cons.mp h1 with h | h
          · subst h
            exact absurd rfl he
          · exact h
        refine List.mem_cons_of_mem _ ?_
        rw [ih]
        refine ⟨h1', ?_, h3⟩
        simp only [List.mem_cons, not_or]
        exact ⟨fun hxe => he hxe.symm, h2⟩

theorem sampleStride_eq (l : List Nat) (s : Nat) :
    1 ≤ s → sampleStride l s
      = (List.range ((l.length + s - 1) / s)).map (fun j => (l[j * s]?).getD 0) := by
  induction l, s using sampleStride.induct with
  | case1 step =>
    intro hs
    rw [sampleStride]
    simp only [List.length_nil, Nat.zero_add]
    rw [Nat.div_eq_of_lt (by omega)]
    simp
  | case2 a rest step ih =>
    intro hs
    have hcount : (rest.length - (step - 1) + step - 1) / step = rest.length / step := by
      rcases Nat.lt_or_ge rest.length (step - 1) with hlt | hge
      · have h3 : rest.length - (step - 1) + step - 1 = step - 1 := by omega
        rw [h3, Nat.div_eq_of_lt (by omega), Nat.div_eq_of_lt (by omega)]
      · have h1 : rest.length - (step - 1) + step - 1 = rest.length := by omega
        rw [h1]
    have hrhs : ((a :: rest).length + step - 1) / step = rest.length / step + 1 := by
      simp only [List.length_cons]
      have h2 : rest.length + 1 + step - 1 = rest.length + step := by omega
      rw [h2, Nat.add_div_right _ (by omega)]
    rw [sampleStride, hrhs, List.range_succ_eq_map, List.map_cons, List.map_map]
    congr 1
    · simp
    · rw [ih hs]
      simp only [List.length_drop]
      rw [hcount]
      apply List.map_congr_left
      intro j hj
      simp only [Function.comp_apply]
      rw [Nat.succ_mul]
      have he : j * step + step = (step - 1 + j * step) + 1 := by omega
      rw [he, List.getElem?_cons_succ, List.getElem?_drop]

/-- C8: the image fingerprint is the deterministic key
`hash ++ "-" ++ byteLength` where `hash` is the 32-bit multiplicative rolling
hash (`hashStep`) folded over the bytes sampled at indices
`0, s, 2s, …` for stride `s = max 1 (length / 1024)` (first conjunct, the
sampling loop rephrased over explicit strided indices); deduplication keeps a
subsequence of the input in first-occurrence order (second conjunct), no two
surviving images share a key (third conjunct), every key of the input is
still represented (fourth conjunct), each survivor is exactly the first image
of the input carrying its key (fifth conjunct), and two bit-identical
surviving images are necessarily one entry (sixth conjunct). -/
theorem claim_C8_fingerprint_dedup (l : List PImage) :
    (∀ data : List Nat,
      simpleHash data
        = toString (((List.range
              ((data.length + max 1 (data.length / 1024) - 1)
                / max 1 (data.length / 1024))).map
            (fun j => (data[j * max 1 (data.length / 1024)]?).getD 0)).foldl hashStep 0)
          ++ "-" ++ toString data.length)
    ∧ (dedupImages l []).Sublist l
    ∧ ((dedupImages l []).map imageKey).Nodup
    ∧ (∀ k, k ∈ (dedupImages l []).map imageKey ↔ k ∈ l.map imageKey)
    ∧ (∀ x, x ∈ dedupImages l []
          ↔ x ∈ l ∧ l.find? (fun y => imageKey y == imageKey x) = some x)
    ∧ (∀ x₁ x₂, x₁ ∈ dedupImages l [] → x₂ ∈ dedupImages l [] →
        x₁.bytes = x₂.bytes → x₁ = x₂) := by
  refine ⟨?_, dedupImages_sublist l [], dedupImages_keys_nodup l [], ?_, ?_, ?_⟩
  · intro data
    rw [simpleHash, sampleStride_eq data _ (Nat.le_max_left 1 _)]
  · intro k
    rw [dedupImages_keys]
    simp
  · intro x
    rw [dedupImages_first_occurrence]
    simp
  · intro x₁ x₂ h1 h2 hb
    rw [dedupImages_first_occurrence] at h1 h2
    have hk : imageKey x₁ = imageKey x₂ := by
      rw [imageKey, imageKey, hb]
    have e1 := h1.2.2
    have e2 := h2.2.2
    rw [hk] at e1
    rw [e1] at e2
    injection e2

theorem claim_C8_fingerprint_dedup_witness :
    ((∀ data : List Nat,
      simpleHash data
        = toString (((List.range
              ((data.length + max 1 (data.length / 1024) - 1)
                / max 1 (data.length / 1024))).map
            (fun j => (data[j * max 1 (data.length / 1024)]?).getD 0)).foldl hashStep 0)
          ++ "-" ++ toString data.length)
    ∧ (dedupImages [(⟨1, [7, 7]⟩ : PImage), ⟨2, [7, 7]⟩, ⟨3, [9]⟩] []).Sublist
        [(⟨1, [7, 7]⟩ : PImage), ⟨2, [7, 7]⟩, ⟨3, [9]⟩]
    ∧ ((dedupImages [(⟨1, [7, 7]⟩ : PImage), ⟨2, [7, 7]⟩, ⟨3, [9]⟩] []).map imageKey).Nodup
    ∧ (∀ k, k ∈ (dedupImages [(⟨1, [7, 7]⟩ : PImage), ⟨2, [7, 7]⟩, ⟨3, [9]⟩] []).map imageKey
          ↔ k ∈ [(⟨1, [7, 7]⟩ : PImage), ⟨2, [7, 7]⟩, ⟨3, [9]⟩].map imageKey)
    ∧ (∀ x, x ∈ dedupImages [(⟨1, [7, 7]⟩ : PImage), ⟨2, [7, 7]⟩, ⟨3, [9]⟩] []
          ↔ x ∈ [(⟨1, [7, 7]⟩ : PImage), ⟨2, [7, 7]⟩, ⟨3, [9]⟩]
            ∧ [(⟨1, [7, 7]⟩ : PImage), ⟨2, [7, 7]⟩, ⟨3, [9]⟩].find?
                (fun y => imageKey y == imageKey x) = some x)
    ∧ (∀ x₁ x₂, x₁ ∈ dedupImages [(⟨1, [7, 7]⟩ : PImage), ⟨2, [7, 7]⟩, ⟨3, [9]⟩] [] →
        x₂ ∈ dedupImages [(⟨1, [7, 7]⟩ : PImage), ⟨2, [7, 7]⟩, ⟨3, [9]⟩] [] →
        x₁.bytes = x₂.bytes → x₁ = x₂)) :=
  claim_C8_fingerprint_dedup [⟨1, [7, 7]⟩, ⟨2, [7, 7]⟩, ⟨3, [9]⟩]

/-- JavaScript `String.prototype.trim()` on a character list. -/
def trimChars (l : List Char) : List Char :=
  ((l.dropWhile Char.isWhitespace).reverse.dropWhile Char.isWhitespace).reverse

/-- JavaScript `String.prototype.indexOf(needle)`: index of the first
occurrence of `needle` in `hay`, `none` when absent (the source compares the
result with `-1`). -/
def strFind : List Char → List Char → Option Nat
  | [], needle => if needle = [] then some 0 else none
  | c :: t, needle =>
    if needle.isPrefixOf (c :: t) then some 0
    else (strFind t needle).map (fun n => n + 1)

/-- The `ImageDescription` record of `src/llm-analyzer.ts`. -/
structure ImgDesc where
  imageId : List Char
  pageNumber : Nat
  description : List Char
deriving DecidableEq

/-- Embeds `parseImageDescriptions` from `src/llm-analyzer.ts`: for each image
of the batch look for the marker `[<id>]` in the response text; when present,
slice from after the marker to the next `"\n[img-"` occurrence (or the end)
and trim; when absent, fall back to the whole trimmed response if the batch
has exactly one image, otherwise skip the image. -/
def parseImageDescriptions (text : List Char) (batch : List ImgCtx) : List ImgDesc :=
  (batch.map (fun img =>
    let marker := '[' :: (img.id ++ [']'])
    match strFind text marker with
    | none =>
      if batch.length == 1 then
        [⟨img.id, img.pageNumber, trimChars text⟩]
      else []
    | some idx =>
      let start := idx + marker.length
      let stop := match strFind (text.drop start) ('\n' :: "[img-".toList) with
        | none => text.length
        | some n => start + n
      [⟨img.id, img.pageNumber, trimChars ((text.drop start).take (stop - start))⟩])).flatten

/-- JavaScript `Map` built from a keyed list (later entries overwrite earlier
ones) followed by `map.get(imgId)`: the last matching entry. -/
def lookupDescription (descs : List ImgDesc) (imgId : List Char) : Option ImgDesc :=
  descs.reverse.find? (fun d => d.imageId == imgId)

/-- Embeds the description substitution of `analyzeAndSynthesize`
(`src/llm-analyzer.ts`): `descMap.get(img.id)?.description ?? "(no description)"`. -/
def synthDescription (descs : List ImgDesc) (imgId : List Char) : List Char :=
  ((lookupDescription descs imgId).map (fun d => d.description)).getD
    "(no description)".toList

/-- A content node of the bone structure (`Content` in `src/config.ts`): id,
title, covered pages, and optional subcontents (an absent `subcontents` field
is the empty list). -/
inductive Content where
  | mk (contentId : List Char) (title : List Char) (pages : List Nat)
      (subcontents : List Content)

def Content.contentId : Content → List Char
  | .mk i _ _ _ => i

def Content.title : Content → List Char
  | .mk _ t _ _ => t

def Content.pages : Content → List Nat
  | .mk _ _ p _ => p

def Content.subcontents : Content → List Content
  | .mk _ _ _ s => s

/-- The `BoneStructure` record of `src/config.ts`. -/
structure BoneStructure where
  summarization : List Char
  contents : List Content

/-- The four fields of a parsed per-content notes response
(`Omit<ContentNotes, "contentId">` in `src/config.ts`). -/
structure NoteFields where
  mainNote : List Char
  reviewQuestions : List Char
  glossary : List Char
  commonPitfalls : List Char
deriving DecidableEq

/-- The `ContentNotes` record of `src/config.ts`. -/
structure ContentNotes where
  contentId : List Char
  mainNote : List Char
  reviewQuestions : List Char
  glossary : List Char
  commonPitfalls : List Char
deriving DecidableEq

/-- `Promise.all` over already-settled outcomes: succeeds with the list of
all values when every promise fulfilled, and is rejected (with some
participating rejection) as soon as any promise rejected — no partial list of
results exists in the rejected case. -/
def runStage {ε α : Type _} : List (Except ε α) → Except ε (List α)
  | [] => .ok []
  | .error e :: _ => .error e
  | .ok a :: rest => (runStage rest).map (fun l => a :: l)

/-- One per-content task of `getNotesForEachBone` (`src/config.ts`): await the
chat completion (`respond`, a rejected promise is `.error`), then
`JSON.parse` the response (`parse`; a thrown parse error is `.error` and is
wrapped in the source's message), then attach the content id. -/
def processContent (respond : Content → Except (List Char) (List Char))
    (parse : List Char → Except (List Char) NoteFields) (c : Content) :
    Except (List Char) ContentNotes :=
  match respond c with
  | .error e => .error e
  | .ok text =>
    match parse text with
    | .error e =>
      .error ("Failed to parse notes JSON for content ".toList ++ c.contentId
        ++ ": ".toList ++ e)
    | .ok n => .ok ⟨c.contentId, n.mainNote, n.reviewQuestions, n.glossary, n.commonPitfalls⟩

/-- Embeds `getNotesForEachBone` (`src/config.ts`): map every content to its
concurrent task and `Promise.all` the results. -/
def getNotesForEachBone (contents : List Content)
    (respond : Content → Except (List Char) (List Char))
    (parse : List Char → Except (List Char) NoteFields) :
    Except (List Char) (List ContentNotes) :=
  runStage (contents.map (processContent respond parse))

/-- Embeds the fan-out of `analyzeAndSynthesize` over description batches
(`src/llm-analyzer.ts`): one request per batch (`respond`; a transport
failure is `.error`), each fulfilled response parsed with the total
`parseImageDescriptions`, all joined by `Promise.all`. -/
def describeStage (batches : List (List ImgCtx))
    (respond : List ImgCtx → Except (List Char) (List Char)) :
    Except (List Char) (List (List ImgDesc)) :=
  runStage (batches.map (fun b => (respond b).map (fun text => parseImageDescriptions text b)))

/-- Embeds `collectAllPages` (`src/config.ts`): a node's own pages followed by
the recursively collected pages of all its subcontents. -/
def collectAllPages : Content → List Nat
  | .mk _ _ pages subs => pages ++ (subs.attach.map (fun s => collectAllPages s.1)).flatten
termination_by c => sizeOf c
decreasing_by
  have := List.sizeOf_lt_of_mem s.2
  simp only [Content.mk.sizeOf_spec]
  omega

/-- The multiset of pages matched by any content (`allMatchedPages` in
`buildBoneStructure`). -/
def matchedPages (contents : List Content) : List Nat :=
  (contents.map collectAllPages).flatten

/-- One image entry of `SynthesisPageInput` (`src/llm-analyzer.ts`). -/
structure SynthImage where
  filename : List Char
  imageId : List Char
  description : List Char
deriving DecidableEq

/-- The `SynthesisPageInput` record of `src/llm-analyzer.ts`. -/
structure SynthPage where
  pageNumber : Nat
  text : List Char
  images : List SynthImage
deriving DecidableEq

/-- The content-bearing test used throughout the source:
`p.text.length > 0 || p.images.length > 0`. -/
def hasContent (p : SynthPage) : Bool :=
  decide (0 < p.text.length) || decide (0 < p.images.length)

/-- The universe of content-bearing page numbers (`allPageNumbers` in
`buildBoneStructure`; the source wraps it in a `Set`, which only removes
duplicates and is irrelevant to membership). -/
def contentPageNumbers (pages : List SynthPage) : List Nat :=
  (pages.filter hasContent).map SynthPage.pageNumber

/-- Embeds `unmatchedPages` of `buildBoneStructure` (`src/config.ts`): the
universe pages that are in no content's transitively collected page set. -/
def unmatchedPages (universePages : List Nat) (contents : List Content) : List Nat :=
  universePages.filter (fun p => !(matchedPages contents).contains p)

/-- The validation tail of `buildBoneStructure`: the coverage warning is
computed and printed, and the parsed structure is returned unchanged — the
same structure flows downstream whether or not pages are uncovered. -/
def validateBoneStructure (s : BoneStructure) (universePages : List Nat) :
    BoneStructure × List Nat :=
  (s, unmatchedPages universePages s.contents)

/-- `Map.get` on the first-claimant page map of the overlap check (keys are
never overwritten, so the first matching entry is the stored one). -/
def pageLookup (m : List (Nat × List Char)) (p : Nat) : Option (List Char) :=
  (m.find? (fun e => e.1 == p)).map (fun e => e.2)

/-- The inner loop of the overlap check (`src/config.ts`): walk one content's
pages with the shared page map `m`; an already-claimed page emits the warning
`(page, first claimant's title, this content's title)`, an unclaimed one is
recorded with this content's title. -/
def scanPages (m : List (Nat × List Char)) (t : List Char) :
    List Nat → List (Nat × List Char) × List (Nat × List Char × List Char)
  | [] => (m, [])
  | p :: ps =>
    match pageLookup m p with
    | some t0 =>
      let r := scanPages m t ps
      (r.1, (p, t0, t) :: r.2)
    | none => scanPages ((p, t) :: m) t ps

/-- The outer loop of the overlap check: contents in order, threading the
page map. -/
def overlapScan (m : List (Nat × List Char)) :
    List Content → List (Nat × List Char × List Char)
  | [] => []
  | c :: rest =>
    let r := scanPages m c.title c.pages
    r.2 ++ overlapScan r.1 rest

/-- The top-level same-level overlap warnings of `buildBoneStructure`
(`topLevelPageMap` loop), as `(page, first title, second title)` triples —
the source prints exactly these three values in its warning string. -/
def topLevelOverlapWarnings (contents : List Content) :
    List (Nat × List Char × List Char) :=
  overlapScan [] contents

/-- The per-parent subcontent overlap warnings of `buildBoneStructure`
(`subcontentPageMap` loop): a fresh map per parent with nonempty
subcontents.  The parent's title, constant within a group, is part of the
printed message only and is omitted from the triple. -/
def subcontentOverlapWarnings (contents : List Content) :
    List (Nat × List Char × List Char) :=
  (contents.map (fun c =>
    if 0 < c.subcontents.length then overlapScan [] c.subcontents else [])).flatten

/-- Modelled from the spec: the first same-level sibling whose page list
claims `p`, if any. -/
def firstClaimant (cs : List Content) (p : Nat) : Option (List Char) :=
  (cs.find? (fun c => c.pages.contains p)).map Content.title

/-- Modelled from the spec ("first-claimant wins in the report"): for each
sibling in order and each of its pages already claimed by an earlier sibling,
one warning pairing the overall first claimant with this sibling. -/
def specOverlapScan (seen : List Content) : List Content → List (Nat × List Char × List Char)
  | [] => []
  | c :: rest =>
    c.pages.filterMap (fun p => (firstClaimant seen p).map (fun t0 => (p, t0, c.title)))
      ++ specOverlapScan (seen ++ [c]) rest

/-- The heading marker by nesting level in `formatContents` (`src/config.ts`):
`level === 0 ? "##" : level === 1 ? "###" : "####"`. -/
def headingMarks (level : Nat) : List Char :=
  if level == 0 then "##".toList
  else if level == 1 then "###".toList
  else "####".toList

/-- Embeds `formatContents` (`src/config.ts`): one heading line per content,
followed by the recursively formatted subcontents when nonempty. -/
def formatContents : List Content → Nat → List (List Char)
  | [], _ => []
  | Content.mk _ t _ subs :: rest, level =>
    (headingMarks level ++ " ".toList ++ t ++ "\n".toList)
      :: ((if 0 < subs.length then formatContents subs (level + 1) else [])
        ++ formatContents rest level)
termination_by l _ => sizeOf l
decreasing_by
  all_goals simp
  all_goals omega

/-- `contentMap.get(id)` in `buildFullNote`: the `Map` keeps the last entry
per key, hence the last matching note. -/
def lookupNotes (notes : List ContentNotes) (id : List Char) : Option ContentNotes :=
  notes.reverse.find? (fun n => n.contentId == id)

/-- The `mainNoteParts` loop of `buildFullNote`: walk `structure.contents` in
stored order, look each content's notes up by id, keep `mainNote + "\n"` for
the ids that have notes, silently skip the rest. -/
def mainNoteParts (contents : List Content) (notes : List ContentNotes) : List (List Char) :=
  contents.filterMap (fun c =>
    (lookupNotes notes c.contentId).map (fun n => n.mainNote ++ "\n".toList))

/-- `mainNoteParts.join("\n")` in `buildFullNote`. -/
def mergedMainNote (contents : List Content) (notes : List ContentNotes) : List Char :=
  joinSep "\n".toList (mainNoteParts contents notes)

/-- The combined appendix sections of `buildFullNote`:
`contentNotes.map(f).filter(x => x.trim().length > 0).join("\n\n")`. -/
def combinedSection (f : ContentNotes → List Char) (notes : List ContentNotes) : List Char :=
  joinSep "\n\n".toList ((notes.map f).filter (fun q => 0 < (trimChars q).length))

/-- Embeds `buildFullNote` (`src/config.ts`): push the parts in source order
— summary block, contents outline, fenced mermaid block, merged study notes,
then each combined appendix section only when (JS-truthy, i.e.) nonempty —
and join them with `""`. -/
def buildFullNote (s : BoneStructure) (contentNotes : List ContentNotes)
    (mermaidFlowchart : List Char) : List Char :=
  (["# Summary\n\n".toList ++ s.summarization ++ "\n\n".toList,
      "# Contents\n\n".toList]
    ++ formatContents s.contents 0
    ++ ["\n".toList,
        "# Concept Map\n\n```mermaid\n".toList ++ trimChars mermaidFlowchart
          ++ "\n```\n\n".toList,
        "# Study Notes\n\n".toList ++ mergedMainNote s.contents contentNotes
          ++ "\n\n".toList]
    ++ (if combinedSection ContentNotes.reviewQuestions contentNotes = [] then []
        else ["# Review Questions\n\n".toList
          ++ combinedSection ContentNotes.reviewQuestions contentNotes ++ "\n\n".toList])
    ++ (if combinedSection ContentNotes.glossary contentNotes = [] then []
        else ["# Glossary\n\n".toList
          ++ combinedSection ContentNotes.glossary contentNotes ++ "\n\n".toList])
    ++ (if combinedSection ContentNotes.commonPitfalls contentNotes = [] then []
        else ["# Common Pitfalls\n\n".toList
          ++ combinedSection ContentNotes.commonPitfalls contentNotes
          ++ "\n\n".toList])).flatten

/-- Modelled from the spec as amended by the C2 counterexample: the fixed
section order of the assembled document — summary block, contents outline,
fenced mermaid diagram, merged study notes, then the three conditional
appendix sections. -/
def assembleDocAmended (s : BoneStructure) (contentNotes : List ContentNotes)
    (mermaidFlowchart : List Char) : List Char :=
  ("# Summary\n\n".toList ++ s.summarization ++ "\n\n".toList)
    ++ ("# Contents\n\n".toList ++ (formatContents s.contents 0).flatten ++ "\n".toList)
    ++ ("# Concept Map\n\n```mermaid\n".toList ++ trimChars mermaidFlowchart
        ++ "\n```\n\n".toList)
    ++ ("# Study Notes\n\n".toList ++ mergedMainNote s.contents contentNotes
        ++ "\n\n".toList)
    ++ (if combinedSection ContentNotes.reviewQuestions contentNotes = [] then []
        else "# Review Questions\n\n".toList
          ++ combinedSection ContentNotes.reviewQuestions contentNotes ++ "\n\n".toList)
    ++ (if combinedSection ContentNotes.glossary contentNotes = [] then []
        else "# Glossary\n\n".toList
          ++ combinedSection ContentNotes.glossary contentNotes ++ "\n\n".toList)
    ++ (if combinedSection ContentNotes.commonPitfalls contentNotes = [] then []
        else "# Common Pitfalls\n\n".toList
          ++ combinedSection ContentNotes.commonPitfalls contentNotes ++ "\n\n".toList)

/-- Modelled from the claim under test (C2 as stated): a document whose
diagram block follows the summary block with nothing in between, then the
merged content and the conditional appendix sections. -/
def assembleDocClaimC2 (s : BoneStructure) (contentNotes : List ContentNotes)
    (mermaidFlowchart : List Char) : List Char :=
  ("# Summary\n\n".toList ++ s.summarization ++ "\n\n".toList)
    ++ ("# Concept Map\n\n```mermaid\n".toList ++ trimChars mermaidFlowchart
        ++ "\n```\n\n".toList)
    ++ ("# Study Notes\n\n".toList ++ mergedMainNote s.contents contentNotes
        ++ "\n\n".toList)
    ++ (if combinedSection ContentNotes.reviewQuestions contentNotes = [] then []
        else "# Review Questions\n\n".toList
          ++ combinedSection ContentNotes.reviewQuestions contentNotes ++ "\n\n".toList)
    ++ (if combinedSection ContentNotes.glossary contentNotes = [] then []
        else "# Glossary\n\n".toList
          ++ combinedSection ContentNotes.glossary contentNotes ++ "\n\n".toList)
    ++ (if combinedSection ContentNotes.commonPitfalls contentNotes = [] then []
        else "# Common Pitfalls\n\n".toList
          ++ combinedSection ContentNotes.commonPitfalls contentNotes ++ "\n\n".toList)

/-- C7: when an image's `[id]` delimiter is absent from the batch response,
the parser assigns the whole trimmed response to that image if the batch has
exactly one image; in a batch of more than one image it produces no
description for that image (no parsed description carries its id), and the
downstream per-page synthesis input substitutes the literal
`"(no description)"` for an id without a description instead of failing. -/
theorem claim_C7_missing_marker_fallbacks (text : List Char) (img : ImgCtx)
    (habs : strFind text ('[' :: (img.id ++ [']'])) = none) :
    parseImageDescriptions text [img]
        = [⟨img.id, img.pageNumber, trimChars text⟩]
    ∧ (∀ batch : List ImgCtx, img ∈ batch → 1 < batch.length →
        (batch.map ImgCtx.id).Nodup →
        ∀ d ∈ parseImageDescriptions text batch, d.imageId ≠ img.id)
    ∧ (∀ descs : List ImgDesc, (∀ d ∈ descs, d.imageId ≠ img.id) →
        synthDescription descs img.id = "(no description)".toList) := by
  refine ⟨?_, ?_, ?_⟩
  · simp [parseImageDescriptions, habs]
  · intro batch hmem hlen hnodup d hd hde
    rw [parseImageDescriptions, List.mem_flatten] at hd
    obtain ⟨lsub, hlsub, hdl⟩ := hd
    rw [List.mem_map] at hlsub
    obtain ⟨img', hmem', hsub⟩ := hlsub
    subst hsub
    have hlenne : (batch.length == 1) = false := by
      simp only [beq_eq_false_iff_ne, ne_eq]
      omega
    cases hfind : strFind text ('[' :: (img'.id ++ [']'])) with
    | none =>
      simp only [hfind, hlenne, if_false] at hdl
      exact absurd hdl (List.not_mem_nil d)
    | some idx =>
      simp only [hfind] at hdl
      rw [List.mem_singleton] at hdl
      have hid : img'.id = img.id := by
        rw [← hde, hdl]
      have himg : img' = img :=
        List.inj_on_of_nodup_map hnodup hmem' hmem hid
      rw [himg, habs] at hfind
      exact Option.noConfusion hfind
  · intro descs hall
    rw [synthDescription, lookupDescription]
    rw [List.find?_eq_none.mpr]
    · rfl
    · intro d hd
      simp only [beq_eq_false_iff_ne, ne_eq, beq_iff_eq]
      exact hall d (List.mem_reverse.mp hd)

theorem claim_C7_missing_marker_fallbacks_witness :
    strFind "no markers at all".toList ('[' :: ("img-1-1".toList ++ [']'])) = none
    ∧ (parseImageDescriptions "no markers at all".toList
          [(⟨"img-1-1".toList, 1, []⟩ : ImgCtx)]
        = [⟨"img-1-1".toList, 1, trimChars "no markers at all".toList⟩]
      ∧ (∀ batch : List ImgCtx, (⟨"img-1-1".toList, 1, []⟩ : ImgCtx) ∈ batch →
          1 < batch.length → (batch.map ImgCtx.id).Nodup →
          ∀ d ∈ parseImageDescriptions "no markers at all".toList batch,
            d.imageId ≠ (⟨"img-1-1".toList, 1, []⟩ : ImgCtx).id)
      ∧ (∀ descs : List ImgDesc,
          (∀ d ∈ descs, d.imageId ≠ (⟨"img-1-1".toList, 1, []⟩ : ImgCtx).id) →
          synthDescription descs (⟨"img-1-1".toList, 1, []⟩ : ImgCtx).id
            = "(no description)".toList)) :=
  ⟨by decide,
    claim_C7_missing_marker_fallbacks "no markers at all".toList
      ⟨"img-1-1".toList, 1, []⟩ (by decide)⟩

theorem runStage_error {ε α : Type _} (rs : List (Except ε α)) :
    (∃ r ∈ rs, ∃ e, r = Except.error e) → ∃ e, runStage rs = Except.error e := by
  induction rs with
  | nil =>
    rintro ⟨r, hr, -⟩
    exact absurd hr (List.not_mem_nil r)
  | cons a rest ih =>
    rintro ⟨r, hr, e, he⟩
    cases a with
    | error e0 => exact ⟨e0, rfl⟩
    | ok a0 =>
      rcases List.mem_cons.mp hr with h | h
      · rw [h] at he
        exact Except.noConfusion he
      · obtain ⟨e1, h1⟩ := ih ⟨r, h, e, he⟩
        exact ⟨e1, by simp [runStage, h1, Except.map]⟩

/-- C6: if any single request of a fan-out stage fails, that whole stage is a
single `Except.error` — no partial list of descriptions or section notes is
exposed.  First conjunct: a transport failure of any Description Batcher
batch.  Second conjunct: a transport failure of any Section Synthesizer
per-node request.  Third conjunct: a response that the Section Synthesizer
cannot parse also aborts the entire synthesis stage. -/
theorem claim_C6_fan_out_all_or_nothing :
    (∀ (batches : List (List ImgCtx))
        (respond : List ImgCtx → Except (List Char) (List Char)),
      (∃ b ∈ batches, ∃ e, respond b = Except.error e) →
      ∃ e, describeStage batches respond = Except.error e)
    ∧ (∀ (contents : List Content)
        (respond : Content → Except (List Char) (List Char))
        (parse : List Char → Except (List Char) NoteFields),
      (∃ c ∈ contents, ∃ e, respond c = Except.error e) →
      ∃ e, getNotesForEachBone contents respond parse = Except.error e)
    ∧ (∀ (contents : List Content)
        (respond : Content → Except (List Char) (List Char))
        (parse : List Char → Except (List Char) NoteFields),
      (∃ c ∈ contents, ∃ s, respond c = Except.ok s ∧ ∃ e, parse s = Except.error e) →
      ∃ e, getNotesForEachBone contents respond parse = Except.error e) := by
  refine ⟨?_, ?_, ?_⟩
  · rintro batches respond ⟨b, hb, e, he⟩
    apply runStage_error
    refine ⟨(respond b).map (fun text => parseImageDescriptions text b),
      List.mem_map_of_mem _ hb, e, ?_⟩
    rw [he]
    rfl
  · rintro contents respond parse ⟨c, hc, e, he⟩
    apply runStage_error
    refine ⟨processContent respond parse c, List.mem_map_of_mem _ hc, e, ?_⟩
    rw [processContent, he]
  · rintro contents respond parse ⟨c, hc, s, hs, e, he⟩
    apply runStage_error
    refine ⟨processContent respond parse c, List.mem_map_of_mem _ hc,
      "Failed to parse notes JSON for content ".toList ++ c.contentId
        ++ ": ".toList ++ e, ?_⟩
    simp only [processContent, hs, he]

theorem claim_C6_fan_out_all_or_nothing_witness :
    (∃ b ∈ [[(⟨['a'], 1, []⟩ : ImgCtx)]], ∃ e,
        (fun _ : List ImgCtx =>
          (Except.error "boom".toList : Except (List Char) (List Char))) b
          = Except.error e)
    ∧ (∃ e, describeStage [[(⟨['a'], 1, []⟩ : ImgCtx)]]
        (fun _ => Except.error "boom".toList) = Except.error e) :=
  ⟨⟨[⟨['a'], 1, []⟩], by simp, "boom".toList, rfl⟩,
    claim_C6_fan_out_all_or_nothing.1 [[⟨['a'], 1, []⟩]]
      (fun _ => Except.error "boom".toList)
      ⟨[⟨['a'], 1, []⟩], by simp, "boom".toList, rfl⟩⟩

theorem collectAllPages_mk (i t : List Char) (p : List Nat) (subs : List Content) :
    collectAllPages (Content.mk i t p subs)
      = p ++ (subs.map collectAllPages).flatten := by
  rw [collectAllPages]
  rw [List.attach_map_val subs collectAllPages]

theorem mem_collectAllPages (c : Content) (pg : Nat) :
    pg ∈ collectAllPages c
      ↔ pg ∈ c.pages ∨ ∃ sub ∈ c.subcontents, pg ∈ collectAllPages sub := by
  cases c with
  | mk i t p subs =>
    rw [collectAllPages_mk, Content.pages, Content.subcontents]
    simp only [List.mem_append, List.mem_flatten, List.mem_map]
    constructor
    · rintro (h | ⟨lsub, ⟨sub, hsub, rfl⟩, hpg⟩)
      · exact Or.inl h
      · exact Or.inr ⟨sub, hsub, hpg⟩
    · rintro (h | ⟨sub, hsub, hpg⟩)
      · exact Or.inl h
      · exact Or.inr ⟨collectAllPages sub, ⟨sub, hsub, rfl⟩, hpg⟩

/-- C4: the Partition Validator's coverage warning lists exactly the set of
universe (content-bearing) pages that are in no node's transitive page set
(`collectAllPages` being a node's own pages unioned recursively with its
descendants', second conjunct); the universe is exactly the page numbers of
the content-bearing pages (third conjunct); and the warning is non-fatal —
the validated structure flows downstream unchanged (fourth conjunct). -/
theorem claim_C4_coverage_warning (pages : List SynthPage) (contents : List Content)
    (s : BoneStructure) (universePages : List Nat) :
    (∀ p, p ∈ unmatchedPages (contentPageNumbers pages) contents
        ↔ p ∈ contentPageNumbers pages ∧ ∀ c ∈ contents, p ∉ collectAllPages c)
    ∧ (∀ (c : Content) (pg : Nat), pg ∈ collectAllPages c
        ↔ pg ∈ c.pages ∨ ∃ sub ∈ c.subcontents, pg ∈ collectAllPages sub)
    ∧ (∀ p, p ∈ contentPageNumbers pages
        ↔ ∃ q, q ∈ pages ∧ hasContent q = true ∧ q.pageNumber = p)
    ∧ (validateBoneStructure s universePages).1 = s
    ∧ (validateBoneStructure s universePages).2
        = unmatchedPages universePages s.contents := by
  refine ⟨?_, mem_collectAllPages, ?_, rfl, rfl⟩
  · intro p
    rw [unmatchedPages, List.mem_filter]
    simp only [Bool.not_eq_true', ← Bool.not_eq_true]
    rw [List.elem_iff]
    simp only [matchedPages, List.mem_flatten, List.mem_map]
    constructor
    · rintro ⟨h1, h2⟩
      refine ⟨h1, fun c hc hpc => h2 ⟨collectAllPages c, ⟨c, hc, rfl⟩, hpc⟩⟩
    · rintro ⟨h1, h2⟩
      refine ⟨h1, fun hex => ?_⟩
      obtain ⟨lsub, ⟨c, hc, rfl⟩, hpc⟩ := hex
      exact h2 c hc hpc
  · intro p
    simp only [contentPageNumbers, List.mem_map, List.mem_filter]
    constructor
    · rintro ⟨q, ⟨hq, hcq⟩, rfl⟩
      exact ⟨q, hq, hcq, rfl⟩
    · rintro ⟨q, hq, hcq, rfl⟩
      exact ⟨q, ⟨hq, hcq⟩, rfl⟩

theorem scanPages_spec (t : List Char) (ps : List Nat) :
    ∀ m : List (Nat × List Char), ps.Nodup →
    ((scanPages m t ps).2
        = ps.filterMap (fun p => (pageLookup m p).map (fun t0 => (p, t0, t))))
    ∧ ∀ q, pageLookup (scanPages m t ps).1 q
        = if q ∈ ps ∧ pageLookup m q = none then some t else pageLookup m q := by
  induction ps with
  | nil =>
    intro m _
    refine ⟨rfl, fun q => ?_⟩
    simp [scanPages]
  | cons p ps ih =>
    intro m hnd
    rw [List.nodup_cons] at hnd
    obtain ⟨hp, hnd'⟩ := hnd
    cases hm : pageLookup m p with
    | some t0 =>
      obtain ⟨ihw, ihm⟩ := ih m hnd'
      have heq : scanPages m t (p :: ps)
          = ((scanPages m t ps).1, (p, t0, t) :: (scanPages m t ps).2) := by
        simp only [scanPages, hm]
      refine ⟨?_, fun q => ?_⟩
      · rw [heq, List.filterMap_cons, hm]
        simp only [Option.map_some']
        rw [ihw]
      · rw [heq]
        simp only
        rw [ihm q]
        by_cases hq : q = p
        · subst hq
          rw [if_neg (fun hcon => hp hcon.1),
            if_neg (fun hcon => by rw [hm] at hcon; exact Option.noConfusion hcon.2)]
        · have hmem : (q ∈ p :: ps) ↔ q ∈ ps := by simp [hq]
          by_cases h2 : q ∈ ps ∧ pageLookup m q = none
          · rw [if_pos h2, if_pos ⟨List.mem_cons_of_mem _ h2.1, h2.2⟩]
          · rw [if_neg h2, if_neg (fun hcon => h2 ⟨hmem.mp hcon.1, hcon.2⟩)]
    | none =>
      obtain ⟨ihw, ihm⟩ := ih ((p, t) :: m) hnd'
      have heq : scanPages m t (p :: ps) = scanPages ((p, t) :: m) t ps := by
        simp only [scanPages, hm]
      have hlookp : pageLookup ((p, t) :: m) p = some t := by
        simp [pageLookup, List.find?_cons_of_pos]
      have hlook : ∀ q, q ≠ p → pageLookup ((p, t) :: m) q = pageLookup m q := by
        intro q hqp
        rw [pageLookup, pageLookup, List.find?_cons_of_neg]
        simp only [beq_iff_eq]
        exact fun he => hqp he.symm
      refine ⟨?_, fun q => ?_⟩
      · rw [heq, ihw, List.filterMap_cons, hm]
        simp only [Option.map_none']
        apply List.filterMap_congr
        intro q hq
        rw [hlook q (fun he => hp (he ▸ hq))]
      · rw [heq, ihm q]
        by_cases hq : q = p
        · subst hq
          rw [if_neg (fun hcon => hp hcon.1), hlookp,
            if_pos ⟨List.mem_cons_self _ _, hm⟩]
        · rw [hlook q hq]
          have hmem : (q ∈ p :: ps) ↔ q ∈ ps := by simp [hq]
          by_cases h2 : q ∈ ps ∧ pageLookup m q = none
          · rw [if_pos h2, if_pos ⟨List.mem_cons_of_mem _ h2.1, h2.2⟩]
          · rw [if_neg h2, if_neg (fun hcon => h2 ⟨hmem.mp hcon.1, hcon.2⟩)]

theorem firstClaimant_append (seen : List Content) (c : Content) (q : Nat) :
    firstClaimant (seen ++ [c]) q
      = if (firstClaimant seen q).isSome then firstClaimant seen q
        else if q ∈ c.pages then some c.title else none := by
  rw [firstClaimant, List.find?_append]
  cases hf : List.find? (fun c => c.pages.contains q) seen with
  | some c0 =>
    have h1 : firstClaimant seen q = some c0.title := by
      rw [firstClaimant, hf]
      rfl
    rw [h1]
    rw [if_pos (show (some c0.title).isSome = true from rfl)]
    rfl
  | none =>
    simp only [firstClaimant, hf, Option.or]
    by_cases hq : q ∈ c.pages
    · rw [List.find?_cons_of_pos _ (by simp [List.elem_iff, hq]), if_pos hq]
      simp
    · rw [List.find?_cons_of_neg _ (by simp [List.elem_iff, hq]), if_neg hq]
      simp

theorem overlapScan_eq (contents : List Content) :
    ∀ (m : List (Nat × List Char)) (seen : List Content),
    (∀ c ∈ contents, c.pages.Nodup) →
    (∀ p, pageLookup m p = firstClaimant seen p) →
    overlapScan m contents = specOverlapScan seen contents := by
  induction contents with
  | nil =>
    intro m seen _ _
    rfl
  | cons c rest ih =>
    intro m seen hnd hinv
    have hcnd : c.pages.Nodup := hnd c (List.mem_cons_self _ _)
    obtain ⟨hw, hm⟩ := scanPages_spec c.title c.pages m hcnd
    simp only [overlapScan, specOverlapScan]
    congr 1
    · rw [hw]
      apply List.filterMap_congr
      intro p _
      rw [hinv p]
    · apply ih _ (seen ++ [c]) (fun c' hc' => hnd c' (List.mem_cons_of_mem _ hc'))
      intro p
      rw [hm p, hinv p, firstClaimant_append]
      by_cases h1 : (firstClaimant seen p).isSome
      · rw [if_pos h1, if_neg (fun hcon => by
          rw [hcon.2] at h1
          simp at h1)]
      · have h0 : firstClaimant seen p = none := by
          cases hfc : firstClaimant seen p
          · rfl
          · rw [hfc] at h1
            simp at h1
        rw [if_neg h1, h0]
        by_cases h2 : p ∈ c.pages
        · rw [if_pos ⟨h2, rfl⟩, if_pos h2]
        · rw [if_neg (fun hcon => h2 hcon.1), if_neg h2]

/-- C1 counterexample: three top-level siblings `A`, `B`, `C` all claim
page 1 (pairwise nonempty page-set intersections).  The validator emits
exactly the two warnings pairing the first claimant `A` with each later
claimant — the conflicting sibling pair `(B, C)` is never flagged, so the
claim that every intersecting sibling pair is reported is false. -/
theorem claim_C1_counterexample :
    topLevelOverlapWarnings
        [Content.mk "c1".toList "A".toList [1] [],
          Content.mk "c2".toList "B".toList [1] [],
          Content.mk "c3".toList "C".toList [1] []]
      = [(1, "A".toList, "B".toList), (1, "A".toList, "C".toList)]
    ∧ (∀ w ∈ topLevelOverlapWarnings
        [Content.mk "c1".toList "A".toList [1] [],
          Content.mk "c2".toList "B".toList [1] [],
          Content.mk "c3".toList "C".toList [1] []],
        ¬(w.2.1 = "B".toList ∧ w.2.2 = "C".toList)
        ∧ ¬(w.2.1 = "C".toList ∧ w.2.2 = "B".toList)) := by
  decide

/-- C1 (amended): the Partition Validator does not flag every intersecting
same-level sibling pair; for each page and each sibling after the first that
claims it, it emits exactly one warning pairing the overall first claimant
with that later sibling ("first-claimant wins in the report") — both for the
top-level siblings and, with a fresh map per parent, for the subcontents of
each parent (assuming each sibling's own page list has no duplicates, which
the page-partition format provides). -/
theorem claim_C1_overlap_pairs_amended (contents : List Content)
    (hnd : ∀ c ∈ contents, c.pages.Nodup)
    (hndsub : ∀ c ∈ contents, ∀ sc ∈ c.subcontents, sc.pages.Nodup) :
    topLevelOverlapWarnings contents = specOverlapScan [] contents
    ∧ subcontentOverlapWarnings contents
        = (contents.map (fun c =>
            if 0 < c.subcontents.length then specOverlapScan [] c.subcontents
            else [])).flatten := by
  constructor
  · exact overlapScan_eq contents [] [] hnd (fun p => rfl)
  · rw [subcontentOverlapWarnings]
    congr 1
    apply List.map_congr_left
    intro c hc
    by_cases h : 0 < c.subcontents.length
    · rw [if_pos h, if_pos h]
      exact overlapScan_eq c.subcontents [] [] (hndsub c hc) (fun p => rfl)
    · rw [if_neg h, if_neg h]

theorem claim_C1_overlap_pairs_amended_witness :
    (∀ c ∈ [Content.mk "c1".toList "A".toList [1, 2] [],
        Content.mk "c2".toList "B".toList [2] [Content.mk "c2-1".toList "B1".toList [2] []]],
      c.pages.Nodup)
    ∧ (∀ c ∈ [Content.mk "c1".toList "A".toList [1, 2] [],
        Content.mk "c2".toList "B".toList [2] [Content.mk "c2-1".toList "B1".toList [2] []]],
      ∀ sc ∈ c.subcontents, sc.pages.Nodup)
    ∧ (topLevelOverlapWarnings
          [Content.mk "c1".toList "A".toList [1, 2] [],
            Content.mk "c2".toList "B".toList [2] [Content.mk "c2-1".toList "B1".toList [2] []]]
        = specOverlapScan []
            [Content.mk "c1".toList "A".toList [1, 2] [],
              Content.mk "c2".toList "B".toList [2] [Content.mk "c2-1".toList "B1".toList [2] []]]
      ∧ subcontentOverlapWarnings
          [Content.mk "c1".toList "A".toList [1, 2] [],
            Content.mk "c2".toList "B".toList [2] [Content.mk "c2-1".toList "B1".toList [2] []]]
        = ([Content.mk "c1".toList "A".toList [1, 2] [],
            Content.mk "c2".toList "B".toList [2] [Content.mk "c2-1".toList "B1".toList [2] []]].map
            (fun c =>
              if 0 < c.subcontents.length then specOverlapScan [] c.subcontents
              else [])).flatten) :=
  ⟨by decide, by decide,
    claim_C1_overlap_pairs_amended
      [Content.mk "c1".toList "A".toList [1, 2] [],
        Content.mk "c2".toList "B".toList [2] [Content.mk "c2-1".toList "B1".toList [2] []]]
      (by decide) (by decide)⟩

theorem find?_key_eq_some (l : List ContentNotes) (n : ContentNotes)
    (hnd : (l.map ContentNotes.contentId).Nodup) (hmem : n ∈ l) :
    l.find? (fun x => x.contentId == n.contentId) = some n := by
  induction l with
  | nil => cases hmem
  | cons a t ih =>
    rw [List.map_cons, List.nodup_cons] at hnd
    obtain ⟨ha, hnd'⟩ := hnd
    rcases List.mem_cons.mp hmem with h | h
    · subst h
      rw [List.find?_cons_of_pos _ (by simp)]
    · have hne : a.contentId ≠ n.contentId := by
        intro he
        exact ha (he ▸ List.mem_map_of_mem ContentNotes.contentId h)
      rw [List.find?_cons_of_neg _ (by simp [hne])]
      exact ih hnd' h

theorem find?_key_eq_none (l : List ContentNotes) (id : List Char)
    (h : ∀ n ∈ l, n.contentId ≠ id) :
    l.find? (fun x => x.contentId == id) = none :=
  List.find?_eq_none.mpr (fun n hn => by simp [h n hn])

theorem lookupNotes_eq_some (notes : List ContentNotes) (n : ContentNotes)
    (hnd : (notes.map ContentNotes.contentId).Nodup) (hmem : n ∈ notes) :
    lookupNotes notes n.contentId = some n := by
  rw [lookupNotes]
  apply find?_key_eq_some
  · rw [List.map_reverse]
    exact List.nodup_reverse.mpr hnd
  · exact List.mem_reverse.mpr hmem

theorem lookupNotes_eq_none (notes : List ContentNotes) (id : List Char)
    (h : ∀ n ∈ notes, n.contentId ≠ id) :
    lookupNotes notes id = none := by
  rw [lookupNotes]
  exact find?_key_eq_none _ _ (fun n hn => h n (List.mem_reverse.mp hn))

theorem lookupNotes_perm (notes₁ notes₂ : List ContentNotes) (id : List Char)
    (hperm : notes₁.Perm notes₂)
    (hnd : (notes₁.map ContentNotes.contentId).Nodup) :
    lookupNotes notes₁ id = lookupNotes notes₂ id := by
  have hnd₂ : (notes₂.map ContentNotes.contentId).Nodup :=
    ((hperm.map ContentNotes.contentId).nodup_iff).mp hnd
  by_cases hex : ∃ n ∈ notes₁, n.contentId = id
  · obtain ⟨n, hn, hid⟩ := hex
    rw [← hid]
    rw [lookupNotes_eq_some notes₁ n hnd hn,
      lookupNotes_eq_some notes₂ n hnd₂ (hperm.mem_iff.mp hn)]
  · push_neg at hex
    rw [lookupNotes_eq_none notes₁ id hex,
      lookupNotes_eq_none notes₂ id (fun n hn => hex n (hperm.mem_iff.mpr hn))]

/-- C5: the merged main content is determined by the content tree's stored
order and the notes *keyed by id* alone — permuting the list in which the
concurrent synthesis results arrived (ids being unique) leaves the merge
unchanged (first conjunct) — and a node whose id has no note is silently
skipped, contributing nothing to the merged parts (second conjunct). -/
theorem claim_C5_merge_tree_order (contents : List Content)
    (notes₁ notes₂ : List ContentNotes)
    (hperm : notes₁.Perm notes₂)
    (hnd : (notes₁.map ContentNotes.contentId).Nodup) :
    mergedMainNote contents notes₁ = mergedMainNote contents notes₂
    ∧ (∀ (pre post : List Content) (c : Content),
        (∀ n ∈ notes₁, n.contentId ≠ c.contentId) →
        mainNoteParts (pre ++ c :: post) notes₁
          = mainNoteParts (pre ++ post) notes₁) := by
  constructor
  · rw [mergedMainNote, mergedMainNote, mainNoteParts, mainNoteParts]
    congr 1
    apply List.filterMap_congr
    intro c _
    rw [lookupNotes_perm notes₁ notes₂ c.contentId hperm hnd]
  · intro pre post c hnone
    rw [mainNoteParts, mainNoteParts, List.filterMap_append, List.filterMap_append,
      List.filterMap_cons, lookupNotes_eq_none notes₁ c.contentId hnone]
    simp

theorem claim_C5_merge_tree_order_witness :
    ([(⟨"c1".toList, "N1".toList, [], [], []⟩ : ContentNotes),
        ⟨"c2".toList, "N2".toList, [], [], []⟩].Perm
      [(⟨"c2".toList, "N2".toList, [], [], []⟩ : ContentNotes),
        ⟨"c1".toList, "N1".toList, [], [], []⟩])
    ∧ (([(⟨"c1".toList, "N1".toList, [], [], []⟩ : ContentNotes),
        ⟨"c2".toList, "N2".toList, [], [], []⟩].map ContentNotes.contentId).Nodup)
    ∧ (mergedMainNote [Content.mk "c1".toList "T1".toList [1] []]
          [(⟨"c1".toList, "N1".toList, [], [], []⟩ : ContentNotes),
            ⟨"c2".toList, "N2".toList, [], [], []⟩]
        = mergedMainNote [Content.mk "c1".toList "T1".toList [1] []]
            [(⟨"c2".toList, "N2".toList, [], [], []⟩ : ContentNotes),
              ⟨"c1".toList, "N1".toList, [], [], []⟩]
      ∧ (∀ (pre post : List Content) (c : Content),
          (∀ n ∈ [(⟨"c1".toList, "N1".toList, [], [], []⟩ : ContentNotes),
              ⟨"c2".toList, "N2".toList, [], [], []⟩],
            n.contentId ≠ c.contentId) →
          mainNoteParts (pre ++ c :: post)
              [(⟨"c1".toList, "N1".toList, [], [], []⟩ : ContentNotes),
                ⟨"c2".toList, "N2".toList, [], [], []⟩]
            = mainNoteParts (pre ++ post)
                [(⟨"c1".toList, "N1".toList, [], [], []⟩ : ContentNotes),
                  ⟨"c2".toList, "N2".toList, [], [], []⟩])) :=
  ⟨by decide, by decide,
    claim_C5_merge_tree_order [Content.mk "c1".toList "T1".toList [1] []]
      [⟨"c1".toList, "N1".toList, [], [], []⟩, ⟨"c2".toList, "N2".toList, [], [], []⟩]
      [⟨"c2".toList, "N2".toList, [], [], []⟩, ⟨"c1".toList, "N1".toList, [], [], []⟩]
      (by decide) (by decide)⟩

/-- C2 (amended): the assembled document consists of exactly these sections
in this fixed order — the title/summary block, then the contents outline
(`# Contents` with the headings of the tree), then the relationship diagram
wrapped in a fenced mermaid block, then the merged main content, then (each
only if its concatenated content is nonempty) the review-questions, glossary
and pitfalls sections.  Unlike the claim as stated, the contents outline
stands between the summary block and the diagram block. -/
theorem claim_C2_section_order_amended (s : BoneStructure)
    (contentNotes : List ContentNotes) (mermaidFlowchart : List Char) :
    buildFullNote s contentNotes mermaidFlowchart
      = assembleDocAmended s contentNotes mermaidFlowchart := by
  rw [buildFullNote, assembleDocAmended]
  by_cases h1 : combinedSection ContentNotes.reviewQuestions contentNotes = [] <;>
    by_cases h2 : combinedSection ContentNotes.glossary contentNotes = [] <;>
      by_cases h3 : combinedSection ContentNotes.commonPitfalls contentNotes = [] <;>
        simp [h1, h2, h3, List.flatten_append, List.append_assoc]

/-- C2 counterexample: on a one-node tree the Document Assembler's output is
not the claimed shape — a `# Contents` outline section stands between the
summary block and the fenced diagram block, so the output differs from the
document assembled with the diagram immediately after the summary. -/
theorem claim_C2_counterexample :
    buildFullNote (BoneStructure.mk "S".toList [Content.mk "c1".toList "Intro".toList [1] []])
        [⟨"c1".toList, "Body".toList, [], [], []⟩] "flowchart TD".toList
      ≠ assembleDocClaimC2
          (BoneStructure.mk "S".toList [Content.mk "c1".toList "Intro".toList [1] []])
          [⟨"c1".toList, "Body".toList, [], [], []⟩] "flowchart TD".toList := by
  have hfc : formatContents [Content.mk "c1".toList "Intro".toList [1] []] 0
      = [headingMarks 0 ++ " ".toList ++ "Intro".toList ++ "\n".toList] := by
    rw [formatContents]
    simp [formatContents]
  rw [buildFullNote, assembleDocClaimC2]
  simp only [hfc]
  decide
